import Mathlib

/-!
Verification of the natural-language specification of the gmpy2 `xmpz`
arbitrary-precision integer engine against the repository's observable
contract.  The repository ships only the doctest conformance suite
(`src/test3/gmpy_test_xmpz.py`); the arithmetic engine itself is not part
of the sources, so the definitions below are shallow embeddings modelled
from the specification's words, grounded on the literal expected values
pinned by the doctests.
-/

namespace GmpySpec

/-- Modelled from the spec: truncated division (`tdivmod`): the quotient
rounds toward zero and the remainder has the sign of the dividend (or is
zero).  Embedded GMP-style through signs and magnitudes: the quotient is
`sign a * sign b * (|a| / |b|)` and the remainder `sign a * (|a| % |b|)`,
which is exactly rounding toward zero. -/
def tdivmod (a b : Int) : Int × Int :=
  (a.sign * b.sign * (a.natAbs / b.natAbs : Nat), a.sign * (a.natAbs % b.natAbs : Nat))

/-- Modelled from the spec: floored division (`fdivmod`): the quotient
rounds toward minus infinity and the remainder has the sign of the
divisor (or is zero).  Obtained from truncated division by shifting the
quotient by one when the truncated remainder is nonzero with sign
opposite to the divisor. -/
def fdivmod (a b : Int) : Int × Int :=
  if (tdivmod a b).2 = 0 ∨ (tdivmod a b).2.sign = b.sign then tdivmod a b
  else ((tdivmod a b).1 - 1, (tdivmod a b).2 + b)

/-- Modelled from the spec: ceiling division (`cdivmod`): the quotient
rounds toward plus infinity and the remainder has the sign opposite to
the divisor (or is zero). -/
def cdivmod (a b : Int) : Int × Int :=
  if (tdivmod a b).2 = 0 ∨ (tdivmod a b).2.sign = -b.sign then tdivmod a b
  else ((tdivmod a b).1 + 1, (tdivmod a b).2 - b)

/-- Modelled from the spec: the spec's operation surface lists no power
operation, but the doctests exercise Python's two-argument `pow` on the
mutable variant; modelled as exact integer exponentiation. -/
def xmpz_pow (a : Int) (n : Nat) : Int :=
  a ^ n

/-- Modelled from the spec: three-argument modular `pow(a, n, m)` as
exercised by the doctests: exact exponentiation followed by the
(nonnegative) residue modulo `m`. -/
def xmpz_powm (a : Int) (n : Nat) (m : Int) : Int :=
  (a ^ n) % m

/-- Modelled from the spec: `invert(a, m)` returns the modular inverse of
`a` mod `m` and silently returns `0` when no inverse exists (the
convenience-method silent-zero policy).  The inverse is realised as the
least nonnegative residue `x < |m|` with `a * x ≡ 1 (mod m)`. -/
def invert (a m : Int) : Int :=
  if Int.gcd a m = 1 then
    match (List.range m.natAbs).find? (fun x : Nat => (a * (x : Int)) % m == 1) with
    | some x => (x : Int)
    | none => 0
  else 0

/-- Modelled from the spec: the module-level `divm(a, b, m)` solves
`b * x ≡ a (mod m)`, failing (`none`, standing for
`ZeroDivisionError("not invertible")`) when no solution exists, and
succeeding even for non-coprime `b`, `m` by cancelling `g = gcd(b, m)`
out of the congruence when `g` divides `a`. -/
def divm (a b m : Int) : Option Int :=
  if m = 0 then none
  else if a % (Int.gcd b m : Int) = 0 then
    some ((invert (b / (Int.gcd b m : Int)) (m / (Int.gcd b m : Int)) *
      (a / (Int.gcd b m : Int))) % (m / (Int.gcd b m : Int)))
  else none

/-- Modelled from the spec: the opaque floating-point collaborator (`mpf`)
restricted to what the integer core's contract observes: a finite value
(kept exact as a rational) or one of the special values `+Inf`, `-Inf`,
`NaN`. -/
inductive Mpf where
  | fin (q : ℚ)
  | inf
  | ninf
  | nan
deriving DecidableEq

/-- Result of a fallible operation: a value or a raised error message. -/
inductive Res (α : Type) where
  | ok (val : α)
  | err (msg : String)
deriving DecidableEq

/-- Modelled from the spec: multiplication `BigInt * mpf` special-value
table: by `NaN` it is `NaN`; by an infinity it is the signed infinity by
the sign-of-product rule, except that the exact-zero BigInt times any
infinity is `NaN`; finite payloads multiply exactly. -/
def mul_mpz_mpf (m : Int) (x : Mpf) : Mpf :=
  match x with
  | .nan => .nan
  | .inf => if 0 < m then .inf else if m < 0 then .ninf else .nan
  | .ninf => if 0 < m then .ninf else if m < 0 then .inf else .nan
  | .fin q => .fin (m * q)

/-- Modelled from the spec: multiplication `mpf * BigInt`; the
special-value table is symmetric in the operand order. -/
def mul_mpf_mpz (x : Mpf) (m : Int) : Mpf :=
  mul_mpz_mpf m x

/-- Modelled from the spec: true division `mpf / BigInt`.  The
exact-integer-zero divisor check comes first and raises
`ZeroDivisionError("mpz division by zero")` before any float
special-value handling; otherwise `NaN` propagates, an infinite dividend
gives a signed infinity, and finite values divide exactly. -/
def div_mpf_mpz (x : Mpf) (n : Int) : Res Mpf :=
  if n = 0 then .err "mpz division by zero"
  else .ok (match x with
    | .nan => .nan
    | .inf => if 0 < n then .inf else .ninf
    | .ninf => if 0 < n then .ninf else .inf
    | .fin q => .fin (q / (n : ℚ)))

/-- Modelled from the spec: `divmod(mpf, BigInt)`.  The exact-zero
divisor raises `ZeroDivisionError("mpz modulo by zero")` before any
special-value handling; otherwise any non-finite dividend yields the
pair `(NaN, NaN)` and finite dividends follow the floored convention. -/
def divmod_mpf_mpz (x : Mpf) (n : Int) : Res (Mpf × Mpf) :=
  if n = 0 then .err "mpz modulo by zero"
  else match x with
    | .nan => .ok (.nan, .nan)
    | .inf => .ok (.nan, .nan)
    | .ninf => .ok (.nan, .nan)
    | .fin q => .ok (.fin ⌊q / (n : ℚ)⌋, .fin (q - (n : ℚ) * ⌊q / (n : ℚ)⌋))

/-- Modelled from the spec: `divmod(BigInt, mpf)`.  A `NaN` divisor
yields `(NaN, NaN)`; an infinite divisor saturates the floored quotient
to `0` or `-1` according to sign alignment, with the remainder the
dividend itself or the infinity; a finite zero float divisor raises the
modulo error. -/
def divmod_mpz_mpf (m : Int) (x : Mpf) : Res (Mpf × Mpf) :=
  match x with
  | .nan => .ok (.nan, .nan)
  | .inf => if 0 ≤ m then .ok (.fin 0, .fin (m : ℚ)) else .ok (.fin (-1), .inf)
  | .ninf => if m ≤ 0 then .ok (.fin 0, .fin (m : ℚ)) else .ok (.fin (-1), .ninf)
  | .fin q =>
    if q = 0 then .err "mpz modulo by zero"
    else .ok (.fin ⌊(m : ℚ) / q⌋, .fin ((m : ℚ) - q * ⌊(m : ℚ) / q⌋))

/-- Little-endian base-256 value of a byte list. -/
def unsignedLE : List Nat → Nat
  | [] => 0
  | b :: r => b + 256 * unsignedLE r

/-- Little-endian base-256 digits of a natural number, fuel-driven so the
kernel can evaluate it; the first argument is the fuel. -/
def natBytesF : Nat → Nat → List Nat
  | 0, _ => []
  | _ + 1, 0 => []
  | f + 1, n + 1 => ((n + 1) % 256) :: natBytesF f ((n + 1) / 256)

/-- Minimal little-endian base-256 digits of a natural number. -/
def natBytes (n : Nat) : List Nat :=
  natBytesF n n

/-- Modelled from the spec: `binary()` serialises a value to a canonical
byte string: little-endian magnitude bytes; a positive value whose top
byte would reach 0x80 gets a zero pad byte so the top bit stays clear,
and a negative value carries its magnitude followed by a sign-marker
byte with the top bit set; zero is the empty string. -/
def binary (x : Int) : List Nat :=
  if x = 0 then []
  else if 0 < x then
    if 128 ≤ (natBytes x.toNat).getLastD 0 then natBytes x.toNat ++ [0]
    else natBytes x.toNat
  else natBytes x.natAbs ++ [128]

/-- Modelled from the spec: construction from raw bytes at base 256, the
exact inverse of `binary`: an empty string is zero, a string whose top
byte has the top bit clear is the nonnegative little-endian value, and a
set top bit marks a negative value whose magnitude is carried by the
remaining bytes. -/
def fromBytes (l : List Nat) : Int :=
  if l = [] then 0
  else if l.getLastD 0 < 128 then (unsignedLE l : Int)
  else -(unsignedLE l.dropLast : Int)

/-- Number of bits of a natural number, fuel-driven so the kernel can
evaluate it; the first argument is the fuel. -/
def bitLenF : Nat → Nat → Nat
  | 0, _ => 0
  | _ + 1, 0 => 0
  | f + 1, n + 1 => bitLenF f ((n + 1) / 2) + 1

/-- Number of bits in the magnitude; `0` for zero. -/
def bitLength (n : Nat) : Nat :=
  bitLenF n n

/-- GMP's `mpz_sizeinbase(x, 2)`: the bit length of the magnitude, with
zero counted as one digit. -/
def sizeinbase2 (x : Int) : Nat :=
  if x = 0 then 1 else bitLength x.natAbs

/-- Modelled from the spec: `getbit(x, i)` returns the bit at position
`i` under infinite-precision two's-complement sign extension, via the
floored shift `⌊x / 2^i⌋ mod 2`. -/
def getbit (x : Int) (i : Nat) : Int :=
  x.fdiv (2 ^ i) % 2

/-- Bounded upward search for the first index at or above `i` whose bit
equals `v`; the first argument is the remaining fuel. -/
def scanF (x v : Int) : Nat → Nat → Option Nat
  | 0, _ => none
  | f + 1, i => if getbit x i = v then some i else scanF x v f (i + 1)

/-- Modelled from the spec: `scan1(x, start)` finds the lowest index ≥
`start` of a 1-bit.  Mirroring the engine: a start beyond the bit length
short-circuits (`start` itself for negative `x` whose sign extension is
all ones, the `None` sentinel for nonnegative `x`); otherwise the bits
up to the bit length are searched, an unsuccessful search giving the
`None` sentinel. -/
def scan1 (x : Int) (j : Nat) : Option Int :=
  if sizeinbase2 x < j then (if x < 0 then some (j : Int) else none)
  else match scanF x 1 (sizeinbase2 x + 1 - j) j with
    | some i => some (i : Int)
    | none => none

/-- Modelled from the spec: `scan0(x, start)` finds the lowest index ≥
`start` of a 0-bit.  Mirroring the engine: a start beyond the bit length
short-circuits (`start` itself for nonnegative `x`, the `None` sentinel
for negative `x` whose sign extension is all ones); otherwise the bits
up to the bit length are searched, an unsuccessful search — possible
only for negative `x` — giving the `-1` sentinel. -/
def scan0 (x : Int) (j : Nat) : Option Int :=
  if sizeinbase2 x < j then (if x < 0 then none else some (j : Int))
  else match scanF x 0 (sizeinbase2 x + 1 - j) j with
    | some i => some (i : Int)
    | none => some (-1)

/-- Modelled from the spec: `setbit(x, i, value)` computes the value
whose bit `i` is set (`value = true`) or cleared (`value = false`) and
whose other bits agree with `x`; on the mutable variant this new value
becomes the receiver's value and is also returned. -/
def setbit (x : Int) (i : Nat) (value : Bool) : Int :=
  if value then (if getbit x i = 1 then x else x + 2 ^ i)
  else (if getbit x i = 1 then x - 2 ^ i else x)

/-- Character for the digit `d` using `0-9a-z`. -/
def digitChar (d : Nat) : Char :=
  if d < 10 then Char.ofNat (48 + d) else Char.ofNat (87 + d)

/-- Little-endian base-`b` digits, fuel-driven so the kernel can
evaluate it; the first argument is the fuel. -/
def natDigitsF : Nat → Nat → Nat → List Nat
  | 0, _, _ => []
  | _ + 1, _, 0 => []
  | f + 1, b, n + 1 => ((n + 1) % b) :: natDigitsF f b ((n + 1) / b)

/-- Base-`b` rendering of a natural number's magnitude using `0-9a-z`. -/
def natStr (b n : Nat) : String :=
  if n = 0 then "0" else String.mk ((natDigitsF n b n).reverse.map digitChar)

/-- Radix marker emitted for bases 2, 8 and 16 in default rendering. -/
def baseTag (b : Nat) : String :=
  if b = 2 then "0b" else if b = 8 then "0o" else if b = 16 then "0x" else ""

/-- The domain-error message used for an out-of-range base. -/
def baseErr : String :=
  "base must be either 0 or in the interval 2 ... 36"

/-- Modelled from the spec: `digits(x, base)` for base in [2,36] renders
the magnitude with digits `0-9a-z`, a `-` sign for negatives and the
`0b`/`0o`/`0x` marker for bases 2/8/16; a base outside [2,36] fails with
the `ValueError` naming the valid interval. -/
def digits (x : Int) (b : Nat) : Res String :=
  if 2 ≤ b ∧ b ≤ 36 then
    .ok ((if x < 0 then "-" else "") ++ baseTag b ++ natStr b x.natAbs)
  else .err baseErr

/-- Number of base-`b` digits of a natural number, with zero counted as
one digit. -/
def numdigitsNat (b n : Nat) : Nat :=
  if n = 0 then 1 else (natDigitsF n b n).length

/-- Modelled from the spec: `numdigits(x, base)` counts the digits
needed for the magnitude of `x` in the base, independent of sign; a base
outside [2,36] fails with the same `ValueError`. -/
def numdigits (x : Int) (b : Nat) : Res Nat :=
  if 2 ≤ b ∧ b ≤ 36 then .ok (numdigitsNat b x.natAbs) else .err baseErr

/-- Decimal rendering of a signed integer. -/
def intStr (x : Int) : String :=
  (if x < 0 then "-" else "") ++ natStr 10 x.natAbs

/-- Modelled from the spec: the repr of a mutable-variant value carries
the `xmpz(...)` tag, or the fully qualified `gmpy2.xmpz(...)` tag when
the global tag toggle is off. -/
def xmpz_tag_repr (x : Int) (tagoff : Bool) : String :=
  if tagoff then "xmpz(" ++ intStr x ++ ")" else "gmpy2.xmpz(" ++ intStr x ++ ")"

/-- Modelled from the spec: `set_tagoff(v)` replaces the global tag
toggle with `v` and returns the previous toggle state (as the integer
the doctests display). -/
def set_tagoff (v : Bool) (st : Bool) : Nat × Bool :=
  ((if st then 1 else 0), v)

lemma sign_cases {r : Int} (h : r ≠ 0) : (r.sign = 1 ∧ 0 < r) ∨ (r.sign = -1 ∧ r < 0) := by
  rcases lt_trichotomy r 0 with h1 | h1 | h1
  · exact Or.inr ⟨Int.sign_eq_neg_one_iff_neg.mpr h1, h1⟩
  · exact absurd h1 h
  · exact Or.inl ⟨Int.sign_eq_one_iff_pos.mpr h1, h1⟩

lemma mul_sign_self {b : Int} (hb : b ≠ 0) : b * b.sign = (b.natAbs : Int) := by
  rcases sign_cases hb with ⟨hs, _⟩ | ⟨hs, _⟩ <;> rw [hs] <;> omega

lemma tdivmod_identity (a b : Int) (hb : b ≠ 0) :
    b * (tdivmod a b).1 + (tdivmod a b).2 = a := by
  show b * (a.sign * b.sign * ((a.natAbs / b.natAbs : Nat) : Int))
      + a.sign * ((a.natAbs % b.natAbs : Nat) : Int) = a
  have h1 : b * (a.sign * b.sign * ((a.natAbs / b.natAbs : Nat) : Int))
      = a.sign * ((b.natAbs : Int) * ((a.natAbs / b.natAbs : Nat) : Int)) := by
    rw [← mul_sign_self hb]; ring
  rw [h1, ← mul_add]
  have h2 : (b.natAbs : Int) * ((a.natAbs / b.natAbs : Nat) : Int)
      + ((a.natAbs % b.natAbs : Nat) : Int) = (a.natAbs : Int) := by
    exact_mod_cast Nat.div_add_mod a.natAbs b.natAbs
  rw [h2, Int.sign_mul_natAbs]

lemma tdivmod_natAbs (a b : Int) : (tdivmod a b).2.natAbs = a.natAbs % b.natAbs := by
  show (a.sign * ((a.natAbs % b.natAbs : Nat) : Int)).natAbs = a.natAbs % b.natAbs
  rcases eq_or_ne a 0 with rfl | ha
  · simp
  · rw [Int.natAbs_mul, Int.natAbs_ofNat]
    rcases sign_cases ha with ⟨hs, _⟩ | ⟨hs, _⟩ <;> rw [hs] <;> simp

lemma tdivmod_natAbs_lt (a b : Int) (hb : b ≠ 0) :
    (tdivmod a b).2.natAbs < b.natAbs := by
  rw [tdivmod_natAbs]
  exact Nat.mod_lt _ (Int.natAbs_pos.mpr hb)

lemma tdivmod_sign (a b : Int) :
    (tdivmod a b).2 = 0 ∨ (tdivmod a b).2.sign = a.sign := by
  show a.sign * ((a.natAbs % b.natAbs : Nat) : Int) = 0 ∨ _
  rcases eq_or_ne ((a.natAbs % b.natAbs : Nat) : Int) 0 with h0 | h0
  · left; rw [h0, mul_zero]
  · right
    show (a.sign * ((a.natAbs % b.natAbs : Nat) : Int)).sign = a.sign
    have hpos : (0 : Int) < ((a.natAbs % b.natAbs : Nat) : Int) := by omega
    rw [Int.sign_mul, Int.sign_eq_one_iff_pos.mpr hpos, mul_one, Int.sign_sign]

lemma tdivmod_bounds (a b : Int) (hb : b ≠ 0) :
    -(b.natAbs : Int) < (tdivmod a b).2 ∧ (tdivmod a b).2 < (b.natAbs : Int) := by
  have h := tdivmod_natAbs_lt a b hb
  omega

/-- Remainder-sign facts for the floored convention, together with the
divisor-product identity and the magnitude bound. -/
lemma fdivmod_spec (a b : Int) (hb : b ≠ 0) :
    b * (fdivmod a b).1 + (fdivmod a b).2 = a ∧
    (fdivmod a b).2.natAbs < b.natAbs ∧
    ((fdivmod a b).2 = 0 ∨ (fdivmod a b).2.sign = b.sign) := by
  have hid := tdivmod_identity a b hb
  have hbd := tdivmod_bounds a b hb
  rw [fdivmod]
  by_cases hc : (tdivmod a b).2 = 0 ∨ (tdivmod a b).2.sign = b.sign
  · rw [if_pos hc]
    exact ⟨hid, tdivmod_natAbs_lt a b hb, hc⟩
  · rw [if_neg hc]
    push_neg at hc
    obtain ⟨hr0, hrs⟩ := hc
    rcases lt_trichotomy b 0 with hbneg | hb0 | hbpos
    · -- divisor negative; the truncated remainder must then be positive
      have hbs : b.sign = -1 := Int.sign_eq_neg_one_iff_neg.mpr hbneg
      have hrpos : 0 < (tdivmod a b).2 := by
        rcases sign_cases hr0 with ⟨_, h1⟩ | ⟨hs, _⟩
        · exact h1
        · exact absurd (hs.trans hbs.symm) hrs
      refine ⟨by linear_combination hid, by simp only; omega, Or.inr ?_⟩
      have hneg : (tdivmod a b).2 + b < 0 := by omega
      rw [Int.sign_eq_neg_one_iff_neg.mpr hneg, hbs]
    · exact absurd hb0 hb
    · -- divisor positive; the truncated remainder must then be negative
      have hbs : b.sign = 1 := Int.sign_eq_one_iff_pos.mpr hbpos
      have hrneg : (tdivmod a b).2 < 0 := by
        rcases sign_cases hr0 with ⟨hs, _⟩ | ⟨_, h1⟩
        · exact absurd (hs.trans hbs.symm) hrs
        · exact h1
      refine ⟨by linear_combination hid, by simp only; omega, Or.inr ?_⟩
      have hpos : 0 < (tdivmod a b).2 + b := by omega
      rw [Int.sign_eq_one_iff_pos.mpr hpos, hbs]

/-- Remainder-sign facts for the ceiling convention, together with the
divisor-product identity and the magnitude bound. -/
lemma cdivmod_spec (a b : Int) (hb : b ≠ 0) :
    b * (cdivmod a b).1 + (cdivmod a b).2 = a ∧
    (cdivmod a b).2.natAbs < b.natAbs ∧
    ((cdivmod a b).2 = 0 ∨ (cdivmod a b).2.sign = -b.sign) := by
  have hid := tdivmod_identity a b hb
  have hbd := tdivmod_bounds a b hb
  rw [cdivmod]
  by_cases hc : (tdivmod a b).2 = 0 ∨ (tdivmod a b).2.sign = -b.sign
  · rw [if_pos hc]
    exact ⟨hid, tdivmod_natAbs_lt a b hb, hc⟩
  · rw [if_neg hc]
    push_neg at hc
    obtain ⟨hr0, hrs⟩ := hc
    rcases lt_trichotomy b 0 with hbneg | hb0 | hbpos
    · -- divisor negative; the truncated remainder must then be negative
      have hbs : b.sign = -1 := Int.sign_eq_neg_one_iff_neg.mpr hbneg
      have hrneg : (tdivmod a b).2 < 0 := by
        rcases sign_cases hr0 with ⟨hs, _⟩ | ⟨_, h1⟩
        · exact absurd (by rw [hs, hbs]; decide) hrs
        · exact h1
      refine ⟨by linear_combination hid, by simp only; omega, Or.inr ?_⟩
      have hpos : 0 < (tdivmod a b).2 - b := by omega
      rw [Int.sign_eq_one_iff_pos.mpr hpos, hbs]; decide
    · exact absurd hb0 hb
    · -- divisor positive; the truncated remainder must then be positive
      have hbs : b.sign = 1 := Int.sign_eq_one_iff_pos.mpr hbpos
      have hrpos : 0 < (tdivmod a b).2 := by
        rcases sign_cases hr0 with ⟨_, h1⟩ | ⟨hs, _⟩
        · exact h1
        · exact absurd (by rw [hs, hbs]) hrs
      refine ⟨by linear_combination hid, by simp only; omega, Or.inr ?_⟩
      have hneg : (tdivmod a b).2 - b < 0 := by omega
      rw [Int.sign_eq_neg_one_iff_neg.mpr hneg, hbs]

/-- Claim C1: for every dividend `a` and nonzero divisor `b`, each of the
three division conventions satisfies `b * quotient + remainder = a` with
the remainder's magnitude below the divisor's, and the remainder's sign
follows the convention's rule: truncated rounds toward zero (remainder
signed like the dividend or zero), floored toward minus infinity
(remainder signed like the divisor or zero), ceiling toward plus infinity
(remainder signed opposite to the divisor or zero); moreover the doctest
values for all sign combinations of `(±17, ±5)` hold. -/
theorem claim_divmod_conventions :
    (∀ a b : Int, b ≠ 0 →
      (b * (tdivmod a b).1 + (tdivmod a b).2 = a ∧
        (tdivmod a b).2.natAbs < b.natAbs ∧
        ((tdivmod a b).2 = 0 ∨ (tdivmod a b).2.sign = a.sign)) ∧
      (b * (fdivmod a b).1 + (fdivmod a b).2 = a ∧
        (fdivmod a b).2.natAbs < b.natAbs ∧
        ((fdivmod a b).2 = 0 ∨ (fdivmod a b).2.sign = b.sign)) ∧
      (b * (cdivmod a b).1 + (cdivmod a b).2 = a ∧
        (cdivmod a b).2.natAbs < b.natAbs ∧
        ((cdivmod a b).2 = 0 ∨ (cdivmod a b).2.sign = -b.sign))) ∧
    cdivmod 17 5 = (4, -3) ∧ cdivmod (-17) 5 = (-3, -2) ∧
    cdivmod 17 (-5) = (-3, 2) ∧ cdivmod (-17) (-5) = (4, 3) ∧
    fdivmod 17 5 = (3, 2) ∧ fdivmod (-17) 5 = (-4, 3) ∧
    fdivmod 17 (-5) = (-4, -3) ∧ fdivmod (-17) (-5) = (3, -2) ∧
    tdivmod 17 5 = (3, 2) ∧ tdivmod (-17) 5 = (-3, -2) ∧
    tdivmod 17 (-5) = (-3, 2) ∧ tdivmod (-17) (-5) = (3, -2) := by
  refine ⟨fun a b hb => ⟨⟨tdivmod_identity a b hb, tdivmod_natAbs_lt a b hb,
    tdivmod_sign a b⟩, fdivmod_spec a b hb, cdivmod_spec a b hb⟩, ?_⟩
  exact ⟨by decide, by decide, by decide, by decide, by decide, by decide,
    by decide, by decide, by decide, by decide, by decide, by decide⟩

/-- Witness for C1: the universally quantified part of
`claim_divmod_conventions` instantiated at the concrete doctest input
`(17, 5)`, discharging the nonzero-divisor hypothesis there. -/
theorem claim_divmod_conventions_witness :
    (5 : Int) ≠ 0 ∧
    ((5 * (tdivmod 17 5).1 + (tdivmod 17 5).2 = 17 ∧
        (tdivmod 17 5).2.natAbs < (5 : Int).natAbs ∧
        ((tdivmod 17 5).2 = 0 ∨ (tdivmod 17 5).2.sign = (17 : Int).sign)) ∧
      (5 * (fdivmod 17 5).1 + (fdivmod 17 5).2 = 17 ∧
        (fdivmod 17 5).2.natAbs < (5 : Int).natAbs ∧
        ((fdivmod 17 5).2 = 0 ∨ (fdivmod 17 5).2.sign = (5 : Int).sign)) ∧
      (5 * (cdivmod 17 5).1 + (cdivmod 17 5).2 = 17 ∧
        (cdivmod 17 5).2.natAbs < (5 : Int).natAbs ∧
        ((cdivmod 17 5).2 = 0 ∨ (cdivmod 17 5).2.sign = -(5 : Int).sign))) :=
  ⟨by decide, claim_divmod_conventions.1 17 5 (by decide)⟩

lemma emod_eq_emod_natAbs (t m : Int) : t % m = t % (m.natAbs : Int) := by
  rcases Int.natAbs_eq m with h | h
  · conv_lhs => rw [h]
  · conv_lhs => rw [h, Int.emod_neg]

lemma invert_dvd {B M : Int} (hcop : Int.gcd B M = 1) (hM : M ≠ 0) :
    M ∣ B * invert B M - 1 := by
  rcases Nat.lt_or_ge 1 M.natAbs with hM1 | hM1
  · -- modulus of magnitude at least two: the residue search succeeds
    have hMnat : (1 : Int) < (M.natAbs : Int) := by exact_mod_cast hM1
    have hone : (1 : Int) % M = 1 := by
      rw [emod_eq_emod_natAbs, Int.emod_eq_of_lt (by norm_num) hMnat]
    have hbez : B * Int.gcdA B M + M * Int.gcdB B M = 1 := by
      have h := (Int.gcd_eq_gcd_ab B M).symm
      rw [hcop] at h
      exact_mod_cast h
    set c := Int.gcdA B M % M with hc
    have hc_nonneg : 0 ≤ c := Int.emod_nonneg _ hM
    have hc_lt : c < (M.natAbs : Int) := by
      rw [hc, emod_eq_emod_natAbs]
      exact Int.emod_lt_of_pos _ (by omega)
    have hpred : (B * ((c.toNat : Nat) : Int)) % M = 1 := by
      rw [Int.toNat_of_nonneg hc_nonneg]
      have h2 : (B * c) % M = (B * Int.gcdA B M) % M := by
        rw [hc, Int.mul_emod, Int.emod_emod_of_dvd _ dvd_rfl, ← Int.mul_emod]
      have h3 : B * Int.gcdA B M = 1 + M * (-Int.gcdB B M) := by linarith [hbez]
      rw [h2, h3, Int.add_mul_emod_self_left, hone]
    have hsome : ((List.range M.natAbs).find?
        (fun x : Nat => (B * (x : Int)) % M == 1)).isSome = true := by
      have hlt : c.toNat < M.natAbs := by omega
      refine List.find?_isSome.mpr ⟨c.toNat, List.mem_range.mpr hlt, ?_⟩
      simpa using hpred
    obtain ⟨y, hy⟩ := Option.isSome_iff_exists.mp hsome
    have hpy : (B * (y : Int)) % M = 1 := by simpa using List.find?_some hy
    have hinv : invert B M = (y : Int) := by
      unfold invert
      rw [if_pos hcop, hy]
    rw [hinv]
    have hmodeq : Int.ModEq M (B * (y : Int)) 1 := by
      show (B * (y : Int)) % M = 1 % M
      rw [hpy, hone]
    have hdvd := Int.modEq_iff_dvd.mp hmodeq
    rw [← neg_sub]
    exact dvd_neg.mpr hdvd
  · -- modulus is a unit: everything is divisible
    have : M = 1 ∨ M = -1 := by omega
    rcases this with rfl | rfl
    · exact one_dvd _
    · exact ⟨-(B * invert B (-1) - 1), by ring⟩

lemma divm_valid (a b m x : Int) (hx : divm a b m = some x) :
    (b * x - a) % m = 0 := by
  unfold divm at hx
  by_cases hm : m = 0
  · rw [if_pos hm] at hx
    exact absurd hx (by simp)
  · rw [if_neg hm] at hx
    by_cases hdvd : a % (Int.gcd b m : Int) = 0
    swap
    · rw [if_neg hdvd] at hx
      exact absurd hx (by simp)
    · rw [if_pos hdvd] at hx
      have hgb : (Int.gcd b m : Int) ∣ b := Int.gcd_dvd_left
      have hgm : (Int.gcd b m : Int) ∣ m := Int.gcd_dvd_right
      have hga : (Int.gcd b m : Int) ∣ a := Int.dvd_of_emod_eq_zero hdvd
      have hgnat : 0 < Int.gcd b m := Int.gcd_pos_iff.mpr (Or.inr hm)
      have hM0 : m / (Int.gcd b m : Int) ≠ 0 := by
        intro h
        exact hm (by rw [← Int.mul_ediv_cancel' hgm, h, mul_zero])
      have hcop : Int.gcd (b / (Int.gcd b m : Int)) (m / (Int.gcd b m : Int)) = 1 :=
        Int.gcd_div_gcd_div_gcd hgnat
      have hinv := invert_dvd hcop hM0
      have hx' : x = (invert (b / (Int.gcd b m : Int)) (m / (Int.gcd b m : Int)) *
          (a / (Int.gcd b m : Int))) % (m / (Int.gcd b m : Int)) := (Option.some.inj hx).symm
      have hkey : (m / (Int.gcd b m : Int)) ∣
          (b / (Int.gcd b m : Int)) * x - (a / (Int.gcd b m : Int)) := by
        rw [hx']
        have hdecomp : (b / (Int.gcd b m : Int)) *
            ((invert (b / (Int.gcd b m : Int)) (m / (Int.gcd b m : Int)) *
              (a / (Int.gcd b m : Int))) % (m / (Int.gcd b m : Int))) -
            (a / (Int.gcd b m : Int)) =
            (b / (Int.gcd b m : Int)) *
            ((invert (b / (Int.gcd b m : Int)) (m / (Int.gcd b m : Int)) *
              (a / (Int.gcd b m : Int))) % (m / (Int.gcd b m : Int)) -
              invert (b / (Int.gcd b m : Int)) (m / (Int.gcd b m : Int)) *
              (a / (Int.gcd b m : Int))) +
            ((b / (Int.gcd b m : Int)) *
              invert (b / (Int.gcd b m : Int)) (m / (Int.gcd b m : Int)) - 1) *
            (a / (Int.gcd b m : Int)) := by ring
        rw [hdecomp]
        apply dvd_add
        · apply Dvd.dvd.mul_left
          rw [Int.emod_def]
          have hrw : invert (b / (Int.gcd b m : Int)) (m / (Int.gcd b m : Int)) *
              (a / (Int.gcd b m : Int)) -
              (m / (Int.gcd b m : Int)) *
              (invert (b / (Int.gcd b m : Int)) (m / (Int.gcd b m : Int)) *
                (a / (Int.gcd b m : Int)) / (m / (Int.gcd b m : Int))) -
              invert (b / (Int.gcd b m : Int)) (m / (Int.gcd b m : Int)) *
              (a / (Int.gcd b m : Int)) =
              -((m / (Int.gcd b m : Int)) *
              (invert (b / (Int.gcd b m : Int)) (m / (Int.gcd b m : Int)) *
                (a / (Int.gcd b m : Int)) / (m / (Int.gcd b m : Int)))) := by ring
          rw [hrw]
          exact dvd_neg.mpr (dvd_mul_right _ _)
        · exact Dvd.dvd.mul_right hinv _
      apply Int.emod_eq_zero_of_dvd
      have h1 : b * x - a = (Int.gcd b m : Int) *
          ((b / (Int.gcd b m : Int)) * x - (a / (Int.gcd b m : Int))) := by
        rw [mul_sub, ← mul_assoc, Int.mul_ediv_cancel' hgb, Int.mul_ediv_cancel' hga]
      rw [h1]
      conv_lhs => rw [← Int.mul_ediv_cancel' hgm]
      exact mul_dvd_mul_left _ hkey

lemma divm_complete (a b m x0 : Int) (hm : m ≠ 0) (hsol : (b * x0 - a) % m = 0) :
    (divm a b m).isSome = true := by
  unfold divm
  rw [if_neg hm]
  have hga : (Int.gcd b m : Int) ∣ a := by
    have h1 : (Int.gcd b m : Int) ∣ b * x0 - a :=
      dvd_trans Int.gcd_dvd_right (Int.dvd_of_emod_eq_zero hsol)
    have h2 : (Int.gcd b m : Int) ∣ b * x0 := Dvd.dvd.mul_right Int.gcd_dvd_left x0
    have h3 : a = b * x0 - (b * x0 - a) := by ring
    rw [h3]
    exact dvd_sub h2 h1
  rw [if_pos (Int.emod_eq_zero_of_dvd hga)]
  rfl

/-- Claim C2: the convenience-method modular inverse `invert(a, m)`
silently returns `0` whenever `a` has no inverse modulo `m`, while the
module-level `divm(a, b, m)` fails (models
`ZeroDivisionError("not invertible")`) exactly when `b*x ≡ a (mod m)` has
no solution, returns a valid solution whenever one exists — even for
`gcd(b, m) ≠ 1` — and the doctest values `invert(123,100) = 87`,
`invert(456,100) = 0`, `divm(6,12,14) = 4`, `divm(4,8,20) = 3` hold with
`divm(123,456,100)` failing. -/
theorem claim_invert_divm :
    (∀ a m : Int, (¬ ∃ x : Int, (a * x) % m = 1) → invert a m = 0) ∧
    (∀ a b m x : Int, divm a b m = some x → (b * x - a) % m = 0) ∧
    (∀ a b m x0 : Int, m ≠ 0 → (b * x0 - a) % m = 0 → (divm a b m).isSome = true) ∧
    invert 123 100 = 87 ∧ invert 456 100 = 0 ∧
    divm 6 12 14 = some 4 ∧ divm 4 8 20 = some 3 ∧ divm 123 456 100 = none := by
  refine ⟨?_, divm_valid, divm_complete, by decide, by decide, by decide, by decide, by decide⟩
  intro a m hnone
  unfold invert
  by_cases hg : Int.gcd a m = 1
  · rw [if_pos hg]
    cases hf : (List.range m.natAbs).find? (fun x : Nat => (a * (x : Int)) % m == 1) with
    | none => rfl
    | some y => exact absurd ⟨(y : Int), by simpa using List.find?_some hf⟩ hnone
  · rw [if_neg hg]

/-- Witness for C2: the completeness part of `claim_invert_divm`
instantiated at the non-coprime doctest call `divm(6, 12, 14)` whose
solution is `x = 4`. -/
theorem claim_invert_divm_witness :
    (14 : Int) ≠ 0 ∧ ((12 : Int) * 4 - 6) % 14 = 0 ∧ (divm 6 12 14).isSome = true :=
  ⟨by decide, by decide, claim_invert_divm.2.2.1 6 12 14 4 (by decide) (by decide)⟩

/-- Claim C3: with an exact integer zero divisor the `ZeroDivisionError`
comes before any floating-point special-value handling: `NaN / 0` raises
"mpz division by zero" and `divmod(x, 0)` raises "mpz modulo by zero"
for every float `x` (including the infinities and `NaN`), whereas
`divmod` with a `NaN` operand and a nonzero integer operand on either
side returns `(NaN, NaN)` instead of raising. -/
theorem claim_zero_divisor_precedence :
    (∀ x : Mpf, divmod_mpf_mpz x 0 = .err "mpz modulo by zero") ∧
    div_mpf_mpz .nan 0 = .err "mpz division by zero" ∧
    (∀ n : Int, n ≠ 0 →
      divmod_mpf_mpz .nan n = .ok (.nan, .nan) ∧
      divmod_mpz_mpf n .nan = .ok (.nan, .nan)) := by
  refine ⟨?_, rfl, ?_⟩
  · intro x
    cases x <;> rfl
  · intro n hn
    refine ⟨?_, rfl⟩
    show (if n = 0 then Res.err "mpz modulo by zero"
      else Res.ok (Mpf.nan, Mpf.nan)) = Res.ok (Mpf.nan, Mpf.nan)
    rw [if_neg hn]

/-- Witness for C3: the `(NaN, NaN)` branch of
`claim_zero_divisor_precedence` instantiated at the nonzero integer
operand `123`. -/
theorem claim_zero_divisor_precedence_witness :
    (123 : Int) ≠ 0 ∧
    (divmod_mpf_mpz .nan 123 = .ok (.nan, .nan) ∧
      divmod_mpz_mpf 123 .nan = .ok (.nan, .nan)) :=
  ⟨by decide, claim_zero_divisor_precedence.2.2 123 (by decide)⟩

/-- Claim C8: multiplying a finite nonzero BigInt by an infinity, in
either operand order, yields the signed infinity of the sign-of-product
rule; the exact-zero BigInt times any infinity is `NaN` rather than `0`;
and any BigInt times `NaN` is `NaN`. -/
theorem claim_mul_special_values :
    (∀ m : Int, 0 < m →
      mul_mpz_mpf m .inf = .inf ∧ mul_mpf_mpz .inf m = .inf ∧
      mul_mpz_mpf m .ninf = .ninf ∧ mul_mpf_mpz .ninf m = .ninf) ∧
    (∀ m : Int, m < 0 →
      mul_mpz_mpf m .inf = .ninf ∧ mul_mpf_mpz .inf m = .ninf ∧
      mul_mpz_mpf m .ninf = .inf ∧ mul_mpf_mpz .ninf m = .inf) ∧
    (mul_mpz_mpf 0 .inf = .nan ∧ mul_mpf_mpz .inf 0 = .nan ∧
      mul_mpz_mpf 0 .ninf = .nan ∧ mul_mpf_mpz .ninf 0 = .nan) ∧
    (∀ m : Int, mul_mpz_mpf m .nan = .nan ∧ mul_mpf_mpz .nan m = .nan) := by
  refine ⟨?_, ?_, ⟨by decide, by decide, by decide, by decide⟩, ?_⟩
  · intro m hm
    have h : mul_mpz_mpf m .inf = .inf := by
      rw [mul_mpz_mpf]; rw [if_pos hm]
    have h2 : mul_mpz_mpf m .ninf = .ninf := by
      rw [mul_mpz_mpf]; rw [if_pos hm]
    exact ⟨h, by rw [mul_mpf_mpz]; exact h, h2, by rw [mul_mpf_mpz]; exact h2⟩
  · intro m hm
    have h : mul_mpz_mpf m .inf = .ninf := by
      rw [mul_mpz_mpf]; rw [if_neg (by omega), if_pos hm]
    have h2 : mul_mpz_mpf m .ninf = .inf := by
      rw [mul_mpz_mpf]; rw [if_neg (by omega), if_pos hm]
    exact ⟨h, by rw [mul_mpf_mpz]; exact h, h2, by rw [mul_mpf_mpz]; exact h2⟩
  · intro m
    exact ⟨rfl, rfl⟩

/-- Witness for C8: the sign-of-product parts of
`claim_mul_special_values` instantiated at the doctest operands `123`
and `-123`. -/
theorem claim_mul_special_values_witness :
    ((0 : Int) < 123 ∧
      (mul_mpz_mpf 123 .inf = .inf ∧ mul_mpf_mpz .inf 123 = .inf ∧
        mul_mpz_mpf 123 .ninf = .ninf ∧ mul_mpf_mpz .ninf 123 = .ninf)) ∧
    ((-123 : Int) < 0 ∧
      (mul_mpz_mpf (-123) .inf = .ninf ∧ mul_mpf_mpz .inf (-123) = .ninf ∧
        mul_mpz_mpf (-123) .ninf = .inf ∧ mul_mpf_mpz .ninf (-123) = .inf)) :=
  ⟨⟨by decide, claim_mul_special_values.1 123 (by decide)⟩,
    ⟨by decide, claim_mul_special_values.2.1 (-123) (by decide)⟩⟩

lemma unsignedLE_natBytesF : ∀ f n : Nat, n ≤ f → unsignedLE (natBytesF f n) = n := by
  intro f
  induction f with
  | zero =>
    intro n hn
    have h0 : n = 0 := by omega
    subst h0
    rfl
  | succ f ih =>
    intro n hn
    cases n with
    | zero => rfl
    | succ m =>
      have hrec : (m + 1) / 256 ≤ f := by omega
      show ((m + 1) % 256) + 256 * unsignedLE (natBytesF f ((m + 1) / 256)) = m + 1
      rw [ih _ hrec]
      omega

lemma natBytes_ne_nil {n : Nat} (hn : 0 < n) : natBytes n ≠ [] := by
  rw [natBytes]
  cases n with
  | zero => omega
  | succ m => exact fun h => List.cons_ne_nil _ _ h

lemma unsignedLE_natBytes (n : Nat) : unsignedLE (natBytes n) = n :=
  unsignedLE_natBytesF n n le_rfl

lemma unsignedLE_append_zero : ∀ l : List Nat, unsignedLE (l ++ [0]) = unsignedLE l := by
  intro l
  induction l with
  | nil => rfl
  | cons b r ih =>
    show b + 256 * unsignedLE (r ++ [0]) = b + 256 * unsignedLE r
    rw [ih]

lemma fromBytes_binary (x : Int) : fromBytes (binary x) = x := by
  rcases lt_trichotomy x 0 with hneg | rfl | hpos
  · rw [binary, if_neg (by omega), if_neg (by omega), fromBytes,
      if_neg (by simp), List.getLastD_concat, if_neg (by omega), List.dropLast_concat,
      unsignedLE_natBytes]
    omega
  · rfl
  · rw [binary, if_neg (by omega), if_pos hpos]
    by_cases hpad : 128 ≤ (natBytes x.toNat).getLastD 0
    · rw [if_pos hpad, fromBytes, if_neg (by simp), List.getLastD_concat,
        if_pos (by omega), unsignedLE_append_zero, unsignedLE_natBytes]
      omega
    · rw [if_neg hpad, fromBytes, if_neg (natBytes_ne_nil (by omega)),
        if_pos (by omega), unsignedLE_natBytes]
      omega

/-- Claim C4: byte serialization round-trips exactly: for every value
`x`, decoding the `binary()` bytes at base 256 returns `x`, including
all negative values and zero; concretely `binary(123)` is the single
byte `0x7b` (`b"{"`), decoding it gives `123`, the round trip of `-123`
gives `-123`, and decoding the bytes of `"melancholy"` gives
`573406620562849222387053` as in the doctests. -/
theorem claim_binary_roundtrip :
    (∀ x : Int, fromBytes (binary x) = x) ∧
    binary 123 = [123] ∧ fromBytes [123] = 123 ∧
    fromBytes (binary (-123)) = -123 ∧
    fromBytes [109, 101, 108, 97, 110, 99, 104, 111, 108, 121] =
      573406620562849222387053 := by
  exact ⟨fromBytes_binary, by decide, by decide, by decide, by decide⟩

lemma scanF_found {x v : Int} : ∀ fuel j i : Nat, j ≤ i → i < j + fuel →
    getbit x i = v → (∀ k, j ≤ k → k < i → getbit x k ≠ v) →
    scanF x v fuel j = some i := by
  intro fuel
  induction fuel with
  | zero => intro j i h1 h2 _ _; omega
  | succ f ih =>
    intro j i h1 h2 hbit hmin
    show (if getbit x j = v then some j else scanF x v f (j + 1)) = some i
    by_cases hj : getbit x j = v
    · rw [if_pos hj]
      have hij : j = i := by
        by_contra hne
        exact hmin j le_rfl (by omega) hj
      rw [hij]
    · rw [if_neg hj]
      have hji : j + 1 ≤ i := by
        rcases Nat.eq_or_lt_of_le h1 with rfl | h
        · exact absurd hbit hj
        · omega
      exact ih (j + 1) i hji (by omega) hbit (fun k hk1 hk2 => hmin k (by omega) hk2)

lemma scanF_none {x v : Int} : ∀ fuel j : Nat,
    (∀ k, j ≤ k → k < j + fuel → getbit x k ≠ v) → scanF x v fuel j = none := by
  intro fuel
  induction fuel with
  | zero => intro j _; rfl
  | succ f ih =>
    intro j hnone
    show (if getbit x j = v then some j else scanF x v f (j + 1)) = none
    rw [if_neg (hnone j le_rfl (by omega))]
    exact ih (j + 1) (fun k hk1 hk2 => hnone k (by omega) (by omega))

lemma lt_two_pow_bitLenF : ∀ f n : Nat, n ≤ f → n < 2 ^ bitLenF f n := by
  intro f
  induction f with
  | zero =>
    intro n hn
    have h0 : n = 0 := by omega
    subst h0
    exact Nat.one_pos
  | succ f ih =>
    intro n hn
    cases n with
    | zero => exact Nat.one_pos
    | succ m =>
      show m + 1 < 2 ^ (bitLenF f ((m + 1) / 2) + 1)
      have hrec := ih ((m + 1) / 2) (by omega)
      rw [pow_succ]
      omega

lemma getbit_high_nonneg {x : Int} (hx : 0 ≤ x) {i : Nat} (hi : sizeinbase2 x ≤ i) :
    getbit x i = 0 := by
  have hlt : x < 2 ^ i := by
    rcases eq_or_ne x 0 with rfl | h0
    · positivity
    · have h1 : x.natAbs < 2 ^ bitLength x.natAbs := lt_two_pow_bitLenF _ _ le_rfl
      have h2 : sizeinbase2 x = bitLength x.natAbs := by rw [sizeinbase2, if_neg h0]
      have h3 : (2 : Nat) ^ bitLength x.natAbs ≤ 2 ^ i :=
        Nat.pow_le_pow_right (by omega) (by omega)
      have h4 : x.natAbs < 2 ^ i := lt_of_lt_of_le h1 h3
      have h5 : (x.natAbs : Int) < (2 : Int) ^ i := by exact_mod_cast h4
      generalize hT : (2 : Int) ^ i = T at h5 ⊢
      omega
  rw [getbit, Int.fdiv_eq_ediv _ (by positivity), Int.ediv_eq_zero_of_lt hx hlt]
  decide

lemma getbit_high_neg {x : Int} (hx : x < 0) {i : Nat} (hi : sizeinbase2 x ≤ i) :
    getbit x i = 1 := by
  have hge : -(2 ^ i) ≤ x := by
    have h0 : x ≠ 0 := by omega
    have h1 : x.natAbs < 2 ^ bitLength x.natAbs := lt_two_pow_bitLenF _ _ le_rfl
    have h2 : sizeinbase2 x = bitLength x.natAbs := by rw [sizeinbase2, if_neg h0]
    have h3 : (2 : Nat) ^ bitLength x.natAbs ≤ 2 ^ i :=
      Nat.pow_le_pow_right (by omega) (by omega)
    have h4 : x.natAbs < 2 ^ i := lt_of_lt_of_le h1 h3
    have h5 : (x.natAbs : Int) < (2 : Int) ^ i := by exact_mod_cast h4
    generalize hT : (2 : Int) ^ i = T at h5 ⊢
    omega
  have hb : (0 : Int) < 2 ^ i := by positivity
  have hdiv : x.fdiv (2 ^ i) = -1 := by
    rw [Int.fdiv_eq_ediv _ (by positivity)]
    have h7 := (Int.ediv_emod_unique (a := x) (b := 2 ^ i) (q := -1)
      (r := x + 2 ^ i) hb).mpr ⟨by ring, by omega, by omega⟩
    exact h7.1
  rw [getbit, hdiv]
  decide

lemma scan1_lowest (x : Int) (hx : 0 ≤ x) (j i : Nat) (hji : j ≤ i)
    (hbit : getbit x i = 1) (hmin : ∀ k, j ≤ k → k < i → getbit x k ≠ 1) :
    scan1 x j = some (i : Int) := by
  have hi_lt : i < sizeinbase2 x := by
    by_contra h
    rw [getbit_high_nonneg hx (by omega)] at hbit
    exact absurd hbit (by decide)
  rw [scan1, if_neg (by omega),
    scanF_found (sizeinbase2 x + 1 - j) j i hji (by omega) hbit hmin]

lemma scan1_sentinel (x : Int) (hx : 0 ≤ x) (j : Nat)
    (hnone : ∀ i, j ≤ i → getbit x i ≠ 1) : scan1 x j = none := by
  rw [scan1]
  by_cases hj : sizeinbase2 x < j
  · rw [if_pos hj, if_neg (by omega)]
  · rw [if_neg hj, scanF_none _ _ (fun k hk1 _ => hnone k hk1)]

lemma scan0_lowest (x : Int) (hx : x < 0) (j i : Nat) (hji : j ≤ i)
    (hbit : getbit x i = 0) (hmin : ∀ k, j ≤ k → k < i → getbit x k ≠ 0) :
    scan0 x j = some (i : Int) := by
  have hi_lt : i < sizeinbase2 x := by
    by_contra h
    rw [getbit_high_neg hx (by omega)] at hbit
    exact absurd hbit (by decide)
  rw [scan0, if_neg (by omega),
    scanF_found (sizeinbase2 x + 1 - j) j i hji (by omega) hbit hmin]

lemma scan0_minus_one (x : Int) (hx : x < 0) (j : Nat) (hj : j ≤ sizeinbase2 x)
    (hnone : ∀ i, j ≤ i → getbit x i ≠ 0) : scan0 x j = some (-1) := by
  rw [scan0, if_neg (by omega), scanF_none _ _ (fun k hk1 _ => hnone k hk1)]

lemma scan0_beyond (x : Int) (hx : x < 0) (j : Nat) (hj : sizeinbase2 x < j) :
    scan0 x j = none := by
  rw [scan0, if_pos hj, if_pos hx]

/-- Counterexample to Claim C5 as stated: for the doctest value
`x = -30027` (whose last 0-bit is at index 14, as the surrounding bit
values show), `scan0` at start index 16 — past the last 0 bit — returns
the `None` sentinel rather than `-1`. -/
theorem claim_scan_counterexample :
    scan0 (-30027) 16 = none ∧ scan0 (-30027) 16 ≠ some (-1) ∧
    scan0 (-30027) 15 = some (-1) ∧ getbit (-30027) 14 = 0 ∧
    getbit (-30027) 15 = 1 ∧ getbit (-30027) 16 = 1 ∧ sizeinbase2 (-30027) = 15 := by
  decide

/-- Claim C5 (amended): bit scanning follows infinite-precision
two's-complement semantics: for nonnegative `x`, `scan1(x, j)` returns
the lowest 1-bit index ≥ `j`, with the `None` sentinel once no 1-bit
remains (`scan1(123, j)` gives `[0,1,3,3,4,5,6]` for `j = 0..6` and the
sentinel for every `j ≥ 7`); for negative `x`, `scan0(x, j)` returns the
lowest 0-bit index ≥ `j`, and once no 0-bit remains — the sign-extension
bits all being 1 — it returns `-1` while `j` is still within the bit
length and the `None` sentinel once `j` exceeds the bit length, as the
doctest sequence for `x = -30027` shows. -/
theorem claim_scan_amended :
    (∀ x : Int, 0 ≤ x → ∀ j i : Nat, j ≤ i → getbit x i = 1 →
      (∀ k, j ≤ k → k < i → getbit x k ≠ 1) → scan1 x j = some (i : Int)) ∧
    (∀ x : Int, 0 ≤ x → ∀ j : Nat, (∀ i, j ≤ i → getbit x i ≠ 1) →
      scan1 x j = none) ∧
    (∀ x : Int, x < 0 → ∀ j i : Nat, j ≤ i → getbit x i = 0 →
      (∀ k, j ≤ k → k < i → getbit x k ≠ 0) → scan0 x j = some (i : Int)) ∧
    (∀ x : Int, x < 0 → ∀ j : Nat, j ≤ sizeinbase2 x →
      (∀ i, j ≤ i → getbit x i ≠ 0) → scan0 x j = some (-1)) ∧
    (∀ x : Int, x < 0 → ∀ j : Nat, sizeinbase2 x < j → scan0 x j = none) ∧
    (List.range 10).map (scan1 123) = [some 0, some 1, some 3, some 3, some 4,
      some 5, some 6, none, none, none] ∧
    (∀ j : Nat, 7 ≤ j → scan1 123 j = none) ∧
    (List.range 18).map (scan0 (-30027)) = [some 1, some 1, some 3, some 3, some 6,
      some 6, some 6, some 8, some 8, some 10, some 10, some 12, some 12, some 13,
      some 14, some (-1), none, none] := by
  refine ⟨scan1_lowest, scan1_sentinel, scan0_lowest, scan0_minus_one,
    scan0_beyond, by decide, ?_, by decide⟩
  intro j hj
  apply scan1_sentinel 123 (by decide) j
  intro i hi
  have h7 : sizeinbase2 123 = 7 := by decide
  rw [getbit_high_nonneg (by decide) (by omega)]
  decide

/-- Witness for C5: the lowest-1-bit part of `claim_scan_amended`
instantiated at the doctest input `scan1(123, 2) = 3`, discharging the
minimality hypothesis concretely. -/
theorem claim_scan_amended_witness :
    (0 : Int) ≤ 123 ∧ getbit 123 3 = 1 ∧ scan1 123 2 = some 3 :=
  ⟨by decide, by decide,
    claim_scan_amended.1 123 (by decide) 2 3 (by decide) (by decide)
      (by
        intro k h1 h2
        have hk : k = 2 := by omega
        subst hk
        decide)⟩

/-- Claim C6: under the specification's in-place semantics, after
`x.setbit(20)` and then `x.setbit(0, 0)` on `x` initially `123`, the
receiver's value is `1048698` and its bit 0 reads `0` — whereas the
doctest expects the second call to return `122` and a subsequent
`getbit(0)` to print `1` (that is, a receiver left unchanged at `123`):
the stale test contradicts the specified mutable behaviour. -/
theorem claim_setbit_inplace :
    setbit 123 20 true = 1048699 ∧
    setbit (setbit 123 20 true) 0 false = 1048698 ∧
    setbit (setbit 123 20 true) 0 false ≠ 122 ∧
    getbit (setbit (setbit 123 20 true) 0 false) 0 = 0 ∧
    getbit 123 0 = 1 := by
  decide

/-- Counterexample to Claim C7 as stated: `digits(123, 16)` renders with
the hexadecimal marker as `"0x7b"`, not `"7b"`. -/
theorem claim_digits_counterexample :
    digits 123 16 = Res.ok "0x7b" ∧ digits 123 16 ≠ Res.ok "7b" := by
  decide

/-- Grounding for the base-conversion model: the doctest table of
`digits(123, base)` for every base from 2 to 36. -/
lemma digits_table_123 :
    (List.range' 2 35).map (digits 123) = [Res.ok "0b1111011", Res.ok "11120",
      Res.ok "1323", Res.ok "443", Res.ok "323", Res.ok "234", Res.ok "0o173",
      Res.ok "146", Res.ok "123", Res.ok "102", Res.ok "a3", Res.ok "96",
      Res.ok "8b", Res.ok "83", Res.ok "0x7b", Res.ok "74", Res.ok "6f",
      Res.ok "69", Res.ok "63", Res.ok "5i", Res.ok "5d", Res.ok "58",
      Res.ok "53", Res.ok "4n", Res.ok "4j", Res.ok "4f", Res.ok "4b",
      Res.ok "47", Res.ok "43", Res.ok "3u", Res.ok "3r", Res.ok "3o",
      Res.ok "3l", Res.ok "3i", Res.ok "3f"] := by
  decide

/-- Claim C7 (amended): `digits(123, 16)` returns `"0x7b"` (the base-16
rendering carries the `0x` marker); for every `x`, `digits(x, base)`
with base outside [2,36] (for example 37) fails with the `ValueError`
whose message names the valid interval, `numdigits` with a base outside
[2,36] (for example 99) fails with the same `ValueError`, and
`numdigits(573406620562849222387053, 10) = 24`. -/
theorem claim_digits_amended :
    digits 123 16 = Res.ok "0x7b" ∧
    (∀ x : Int, ∀ b : Nat, ¬(2 ≤ b ∧ b ≤ 36) → digits x b = Res.err baseErr) ∧
    (∀ x : Int, ∀ b : Nat, ¬(2 ≤ b ∧ b ≤ 36) → numdigits x b = Res.err baseErr) ∧
    digits 123 37 = Res.err baseErr ∧
    numdigits 23 99 = Res.err baseErr ∧
    numdigits 573406620562849222387053 10 = Res.ok 24 ∧
    baseErr = "base must be either 0 or in the interval 2 ... 36" := by
  refine ⟨by decide, ?_, ?_, by decide, by decide, by decide, rfl⟩
  · intro x b hb
    rw [digits, if_neg hb]
  · intro x b hb
    rw [numdigits, if_neg hb]

/-- Witness for C7: the out-of-range-base part of `claim_digits_amended`
instantiated at the doctest call `digits(123, 37)`. -/
theorem claim_digits_amended_witness :
    ¬(2 ≤ 37 ∧ 37 ≤ 36) ∧ digits 123 37 = Res.err baseErr :=
  ⟨by decide, claim_digits_amended.2.1 123 37 (by decide)⟩

/-- Claim C9: under the specification, a mutable-variant value displays
with the `xmpz(...)` tag — `repr` of the mutable `123` is `"xmpz(123)"`
and of `23` is `"xmpz(23)"`, never the immutable tag `"mpz(23)"` that
the stale doctest lines expect — and the global toggle switches the
repr to the fully qualified `gmpy2.xmpz(...)` form while returning the
previous toggle state. -/
theorem claim_xmpz_repr_tag :
    xmpz_tag_repr 123 true = "xmpz(123)" ∧
    xmpz_tag_repr 23 true = "xmpz(23)" ∧
    xmpz_tag_repr 23 true ≠ "mpz(23)" ∧
    xmpz_tag_repr 123 false = "gmpy2.xmpz(123)" ∧
    set_tagoff false true = (1, false) ∧
    set_tagoff true false = (0, true) := by
  decide

/-- Claim C10: exponentiation on the mutable variant, in both the
two-argument and three-argument (modular) forms, has exact integer
semantics: `pow(123, 10) = 792594609605189126649` and
`pow(123, 7, 456) = 99`. -/
theorem claim_xmpz_pow :
    xmpz_pow 123 10 = 792594609605189126649 ∧ xmpz_powm 123 7 456 = 99 := by
  decide

end GmpySpec
